import Mathlib

/-!
Verification of the DuplicateCrawler hybrid deduplication engine.

The development shallowly embeds the Python sources:
  text_utils.py      (text_clean, extract_text, CAD and vector heuristics)
  mixed.py           (load_documents, find_duplicates_tfidf)
  main.py            (the variant load_documents and extract_text)
  binary_hashing.py  (hash_text, hash_binary, hash_file, find_duplicates)

External collaborators (the Unicode library, pdfminer, python-docx, hashlib,
sklearn similarity values, the filesystem) are modelled as explicit function
parameters; the logic of the repository itself is translated directly.
Strings of document text are modelled as lists of characters, file paths as
opaque Lean strings, byte strings as lists of naturals.
-/

/-- Whitespace class of the Python regular expression class \s and of
str.isspace, over Unicode code points. -/
def pyIsSpace (c : Char) : Bool :=
  decide (c = ' ' ∨ (9 ≤ c.toNat ∧ c.toNat ≤ 13) ∨ (28 ≤ c.toNat ∧ c.toNat ≤ 31) ∨
    c.toNat = 133 ∨ c.toNat = 160 ∨ c.toNat = 5760 ∨ (8192 ≤ c.toNat ∧ c.toNat ≤ 8202) ∨
    c.toNat = 8232 ∨ c.toNat = 8233 ∨ c.toNat = 8239 ∨ c.toNat = 8287 ∨ c.toNat = 12288)

/-- State machine equivalent of re.sub applied with pattern \s+ and
replacement a single space: each maximal nonempty whitespace run becomes one
space.  The Boolean flag records whether the previous character was part of a
whitespace run already replaced. -/
def collapseWsAux : Bool → List Char → List Char
  | _, [] => []
  | prevSpace, c :: rest =>
    if pyIsSpace c then
      if prevSpace then collapseWsAux true rest
      else ' ' :: collapseWsAux true rest
    else c :: collapseWsAux false rest

/-- re.sub of the pattern \s+ by a single space, as in text_clean. -/
def collapseWs (s : List Char) : List Char := collapseWsAux false s

/-- Python str.strip with no argument: remove leading and trailing
whitespace. -/
def stripWs (s : List Char) : List Char :=
  ((s.dropWhile pyIsSpace).reverse.dropWhile pyIsSpace).reverse

/-- text_clean from text_utils.py (identical copies in main.py and
tfdfi.py).  The external library calls are parameters: n is
unicodedata.normalize applied with form NFKD, l is str.lower.  A falsy
(empty) input returns the empty string; otherwise NFKD, lowercase, collapse
whitespace runs to single spaces, and strip. -/
def text_clean (n l : List Char → List Char) (x : List Char) : List Char :=
  if x = [] then [] else stripWs (collapseWs (l (n x)))

/-- No two adjacent characters are both whitespace. -/
def NoTwoSpaces (t : List Char) : Prop :=
  List.Chain' (fun a b => pyIsSpace a = false ∨ pyIsSpace b = false) t

/-- Every whitespace character of the list is the plain space. -/
def SpacesNormal (t : List Char) : Prop := ∀ c ∈ t, pyIsSpace c = true → c = ' '

/-- The first character, when present, is not whitespace. -/
def HeadNotSpace (t : List Char) : Prop := ∀ c, t.head? = some c → pyIsSpace c = false

/-- The clean shape of a collapsed- and stripped string: no two adjacent
whitespace characters, every whitespace character is a plain space, and the
string neither begins nor ends with whitespace. -/
def CleanForm (t : List Char) : Prop :=
  NoTwoSpaces t ∧ SpacesNormal t ∧ HeadNotSpace t ∧ HeadNotSpace t.reverse

/-- Python pathlib suffix of a path string: the final extension of the last
path component, that is, name[i:] for i the position of the last dot of the
name whenever 0 < i < len(name) - 1, and the empty string otherwise.  Both
slash directions separate components, as on Windows. -/
def pySuffix (p : String) : List Char :=
  let name := (p.data.reverse.takeWhile fun c => !(c == '/' || c == '\\')).reverse
  let rev := name.reverse
  let after := rev.takeWhile fun c => !(c == '.')
  if after.length = name.length then []
  else if after.length = 0 then []
  else if after.length + 1 = name.length then []
  else '.' :: after.reverse

/-- Python str.endswith applied to a path string, a case-sensitive suffix
test. -/
def endsWithL (p : String) (s : List Char) : Bool := decide (s <:+ p.data)

/-- Python substring containment, as in the expression sig in producer. -/
def isInfixL (s t : List Char) : Bool := decide (s <:+: t)

/-- Membership of a lower-cased suffix in the recognized text-bearing
extension list of load_documents. -/
def inExts (xs : List Char) : Bool :=
  decide (xs = ".txt".data ∨ xs = ".pdf".data ∨ xs = ".docx".data)

/-- The external world consumed by the engine, one accessor per external
library call.  A none value models the call raising an exception (or, for
extraction, yielding nothing).
  readTxt:   open(path).read() for a text file
  pdfMeta:   the decoded Producer and Creator metadata fields of a PDF
  pdfVector: the vector-drawing instruction count of the first PDF page
  pdfText:   pdfminer high-level text extraction
  docxText:  the joined paragraph text of a word-processor package
  raw:       the raw byte content of the file -/
structure ExtWorld where
  readTxt : String → Option (List Char)
  pdfMeta : String → Option (List Char × List Char)
  pdfVector : String → Option Nat
  pdfText : String → Option (List Char)
  docxText : String → Option (List Char)
  raw : String → Option (List Nat)

/-- The fixed CAD signature list of is_created_by_cad_software. -/
def cadSigs : List (List Char) :=
  ["autocad".data, "bentley".data, "microstation".data, "revit".data,
    "bluebeam".data, "graphisoft".data]

/-- is_created_by_cad_software from text_utils.py.  If the document cannot
be opened or its metadata read, the file is flagged (returns true).  The
metadata fields are lower-cased (twice, as in the source: once inside
decode_meta and once at the call site) and checked for the CAD signatures
as substrings. -/
def is_created_by_cad_software (w : ExtWorld) (l : List Char → List Char)
    (p : String) : Bool :=
  match w.pdfMeta p with
  | none => true
  | some (pr, cr) =>
    let producer := l (l pr)
    let creator := l (l cr)
    (cadSigs.any fun s => isInfixL s producer) || (cadSigs.any fun s => isInfixL s creator)

/-- is_complex_vector_file from text_utils.py: count the vector drawing
instructions of the first page; on any exception assume the file is unsafe
(returns true). -/
def is_complex_vector_file (w : ExtWorld) (p : String) (threshold : Nat) : Bool :=
  match w.pdfVector p with
  | none => true
  | some count => decide (threshold < count)

/-- extract_text from text_utils.py.  Case-sensitive extension dispatch; for
page-description files the CAD metadata heuristic runs first and the vector
density probe second, each returning none when flagged; every handler
exception becomes none. -/
def extract_text (w : ExtWorld) (l : List Char → List Char) (p : String) :
    Option (List Char) :=
  if endsWithL p ".txt".data then w.readTxt p
  else if endsWithL p ".pdf".data then
    if is_created_by_cad_software w l p then none
    else if is_complex_vector_file w p 500 then none
    else w.pdfText p
  else if endsWithL p ".docx".data then w.docxText p
  else none

namespace Mixed

/-- load_documents from mixed.py, over the path stream produced by the
external directory walker.  A path whose lower-cased suffix is recognized is
extracted; a truthy (nonempty) extraction longer than 50 characters after
cleaning is text-eligible, a longer-than-none but short one is dropped, a
falsy extraction falls back to the binary list; unrecognized suffixes go to
the binary list.  Returns (text paths, documents, binary paths). -/
def load_documents (w : ExtWorld) (n l : List Char → List Char) :
    List String → List String × List (List Char) × List String
  | [] => ([], [], [])
  | p :: rest =>
    let r := load_documents w n l rest
    if inExts (l (pySuffix p)) then
      match extract_text w l p with
      | some t =>
        if t = [] then (r.1, r.2.1, p :: r.2.2)
        else
          if 50 < (text_clean n l t).length then
            (p :: r.1, text_clean n l t :: r.2.1, r.2.2)
          else r
      | none => (r.1, r.2.1, p :: r.2.2)
    else (r.1, r.2.1, p :: r.2.2)

/-- find_duplicates_tfidf from mixed.py.  The TF-IDF vectorization and the
cosine similarity matrix are computed by the external sklearn library; the
matrix enters as the function sim over corpus indices.  The function guards
corpora of fewer than two documents, scans every matrix entry above the
threshold as np.where does, and keeps the entries with row index strictly
below column index. -/
def find_duplicates_tfidf (paths : List String) (documents : List (List Char))
    (sim : Nat → Nat → ℚ) (threshold : ℚ) : List (String × String × ℚ) :=
  if documents.length < 2 then []
  else
    (List.range documents.length).flatMap fun r =>
      (List.range documents.length).filterMap fun c =>
        if threshold < sim r c ∧ r < c then
          some (paths.getD r "", paths.getD c "", sim r c)
        else none

end Mixed

namespace MainMod

/-- extract_text from main.py: like the text_utils version but with no CAD
or vector-density heuristic on page-description files. -/
def extract_text (w : ExtWorld) (p : String) : Option (List Char) :=
  if endsWithL p ".txt".data then w.readTxt p
  else if endsWithL p ".pdf".data then w.pdfText p
  else if endsWithL p ".docx".data then w.docxText p
  else none

/-- load_documents from main.py.  Identical to the mixed.py variant except
that a falsy extraction result is not appended to the binary list: the
conditional on raw_text has no else branch, so such files vanish from both
lists. -/
def load_documents (w : ExtWorld) (n l : List Char → List Char) :
    List String → List String × List (List Char) × List String
  | [] => ([], [], [])
  | p :: rest =>
    let r := load_documents w n l rest
    if inExts (l (pySuffix p)) then
      match extract_text w p with
      | some t =>
        if t = [] then r
        else
          if 50 < (text_clean n l t).length then
            (p :: r.1, text_clean n l t :: r.2.1, r.2.2)
          else r
      | none => r
    else (r.1, r.2.1, p :: r.2.2)

end MainMod

namespace BinHash

/-- hash_text from binary_hashing.py: the secure hash of the UTF-8 encoding
of the cleaned text.  enc is the external UTF-8 encoder and sha the external
SHA-256 digest. -/
def hash_text (sha : List Nat → Nat) (enc : List Char → List Nat)
    (n l : List Char → List Char) (t : List Char) : Nat :=
  sha (enc (text_clean n l t))

/-- hash_binary from binary_hashing.py: the secure hash of the raw bytes, or
none when the file cannot be read. -/
def hash_binary (sha : List Nat → Nat) (w : ExtWorld) (p : String) : Option Nat :=
  (w.raw p).map sha

/-- hash_file from binary_hashing.py: semantic hash of the cleaned extracted
text when extraction yields a value (even the empty string), otherwise the
binary hash of the raw bytes. -/
def hash_file (sha : List Nat → Nat) (enc : List Char → List Nat)
    (n l : List Char → List Char) (w : ExtWorld) (p : String) : Option Nat :=
  match extract_text w l p with
  | some t => some (hash_text sha enc n l t)
  | none => hash_binary sha w p

/-- Appending a path under its hash in the accumulated map, preserving
insertion order as a Python dict does. -/
def addHash (m : List (Nat × List String)) (h : Nat) (p : String) :
    List (Nat × List String) :=
  match m with
  | [] => [(h, [p])]
  | (k, ps) :: rest => if k = h then (k, ps ++ [p]) :: rest else (k, ps) :: addHash rest h p

/-- The list of paths stored under a hash. -/
def lookupH : List (Nat × List String) → Nat → List String
  | [], _ => []
  | (k, ps) :: rest, h => if k = h then ps else lookupH rest h

/-- The accumulation loop of find_duplicates over the walker output. -/
def buildHashMap (sha : List Nat → Nat) (enc : List Char → List Nat)
    (n l : List Char → List Char) (w : ExtWorld) :
    List String → List (Nat × List String) → List (Nat × List String)
  | [], m => m
  | p :: rest, m =>
    match hash_file sha enc n l w p with
    | some h => buildHashMap sha enc n l w rest (addHash m h p)
    | none => buildHashMap sha enc n l w rest m

/-- find_duplicates from binary_hashing.py: hash every file and keep the
hashes carrying more than one path. -/
def find_duplicates (sha : List Nat → Nat) (enc : List Char → List Nat)
    (n l : List Char → List Char) (w : ExtWorld) (paths : List String) :
    List (Nat × List String) :=
  (buildHashMap sha enc n l w paths []).filter fun kv => decide (1 < kv.2.length)

end BinHash

/-- The default similarity threshold 0.90 of the engine, written as an
explicit rational so that concrete instances evaluate inside the kernel. -/
def defaultThreshold : ℚ := ⟨9, 10, by decide, by decide⟩

/-- ASCII lower-casing of one character; a concrete instance of the external
str.lower map, sufficient for extension strings. -/
def asciiLowerChar (c : Char) : Char :=
  if 'A' ≤ c ∧ c ≤ 'Z' then Char.ofNat (c.toNat + 32) else c

/-- ASCII lower-casing of a string. -/
def asciiLower (s : List Char) : List Char := s.map asciiLowerChar

/-- A ten-character extraction, below the minimum-content gate. -/
def tenChars : List Char := "abcdefghij".data

/-- A fifty-character extraction, exactly at the minimum-content gate. -/
def fiftyChars : List Char := "abcdefghijklmnopqrstuvwxyzabcdefghijklmnopqrstuvwx".data

/-- A world holding two readable text files whose cleaned extractions have
length ten and fifty. -/
def wShort : ExtWorld where
  readTxt := fun p =>
    if p = "short.txt" then some tenChars
    else if p = "edge.txt" then some fiftyChars
    else none
  pdfMeta := fun _ => none
  pdfVector := fun _ => none
  pdfText := fun _ => none
  docxText := fun _ => none
  raw := fun _ => none

/-- A world in which every external call fails. -/
def wFail : ExtWorld where
  readTxt := fun _ => none
  pdfMeta := fun _ => none
  pdfVector := fun _ => none
  pdfText := fun _ => none
  docxText := fun _ => none
  raw := fun _ => none

/-- A world holding one page-description file whose producer metadata names
a CAD tool while plenty of visible text is extractable. -/
def wCad : ExtWorld where
  readTxt := fun _ => none
  pdfMeta := fun p => if p = "draw.pdf" then some ("autocad plotter".data, []) else none
  pdfVector := fun _ => some 0
  pdfText := fun _ =>
    some "a long stretch of clearly visible prose extracted from the drawing".data
  docxText := fun _ => none
  raw := fun _ => none

/-- A world holding a page-description file and a word-processor file whose
extracted prose is identical while their raw bytes differ. -/
def wPair : ExtWorld where
  readTxt := fun _ => none
  pdfMeta := fun _ => some ([], [])
  pdfVector := fun _ => some 0
  pdfText := fun p => if p = "a.pdf" then some "the very same prose".data else none
  docxText := fun p => if p = "b.docx" then some "the very same prose".data else none
  raw := fun p => if p = "a.pdf" then some [0] else some [1]

/-- A concrete stand-in for the external SHA-256 digest. -/
def shaW (bs : List Nat) : Nat := bs.foldl (fun a b => 256 * a + b + 1) 7

/-- A concrete stand-in for the external UTF-8 encoder. -/
def encW (cs : List Char) : List Nat := cs.map Char.toNat

theorem headNotSpace_collapseAux (s : List Char) : HeadNotSpace (collapseWsAux true s) := by
  induction s with
  | nil => intro c h; simp [collapseWsAux] at h
  | cons a t ih =>
    intro c h
    by_cases ha : pyIsSpace a
    · simp [collapseWsAux, ha] at h
      exact ih c h
    · simp [collapseWsAux, ha] at h
      rw [← h]
      simpa using ha

theorem collapseAux_true_of_headNotSpace (s : List Char) (h : HeadNotSpace s) :
    collapseWsAux true s = collapseWsAux false s := by
  cases s with
  | nil => rfl
  | cons a t =>
    have ha : pyIsSpace a = false := h a rfl
    simp [collapseWsAux, ha]

theorem noTwoSpaces_collapseAux (b : Bool) (s : List Char) :
    NoTwoSpaces (collapseWsAux b s) := by
  induction s generalizing b with
  | nil => simp [collapseWsAux, NoTwoSpaces]
  | cons a t ih =>
    by_cases ha : pyIsSpace a
    · cases b with
      | true => simpa [collapseWsAux, ha] using ih true
      | false =>
        simp only [collapseWsAux, ha, if_true, if_false, Bool.false_eq_true]
        unfold NoTwoSpaces
        rw [List.chain'_cons']
        refine ⟨?_, ih true⟩
        intro y hy
        right
        exact headNotSpace_collapseAux t y hy
    · simp only [collapseWsAux, ha, if_false, Bool.false_eq_true]
      unfold NoTwoSpaces
      rw [List.chain'_cons']
      refine ⟨?_, ih false⟩
      intro y _
      left
      simpa using ha

theorem spacesNormal_collapseAux (b : Bool) (s : List Char) :
    SpacesNormal (collapseWsAux b s) := by
  induction s generalizing b with
  | nil => intro c hc; simp [collapseWsAux] at hc
  | cons a t ih =>
    intro c hc hsp
    by_cases ha : pyIsSpace a
    · cases b with
      | true =>
        simp only [collapseWsAux, ha, if_true] at hc
        exact ih true c hc hsp
      | false =>
        simp only [collapseWsAux, ha, if_true, if_false, Bool.false_eq_true] at hc
        rcases List.mem_cons.mp hc with h | h
        · exact h
        · exact ih true c h hsp
    · simp only [collapseWsAux, ha, if_false, Bool.false_eq_true] at hc
      rcases List.mem_cons.mp hc with h | h
      · exfalso; rw [h] at hsp; simp [ha] at hsp
      · exact ih false c h hsp

theorem headNotSpace_dropWhile (s : List Char) : HeadNotSpace (s.dropWhile pyIsSpace) := by
  induction s with
  | nil => intro c h; simp at h
  | cons a t ih =>
    intro c h
    by_cases ha : pyIsSpace a
    · rw [List.dropWhile_cons_of_pos ha] at h
      exact ih c h
    · rw [List.dropWhile_cons_of_neg ha] at h
      simp at h
      rw [← h]
      simpa using ha

theorem dropWhile_of_headNotSpace (s : List Char) (h : HeadNotSpace s) :
    s.dropWhile pyIsSpace = s := by
  cases s with
  | nil => rfl
  | cons a t => exact List.dropWhile_cons_of_neg (by simp [h a rfl])

theorem noTwoSpaces_tail (a : Char) (t : List Char) (h : NoTwoSpaces (a :: t)) :
    NoTwoSpaces t := List.Chain'.tail h

theorem noTwoSpaces_dropWhile (s : List Char) (h : NoTwoSpaces s) :
    NoTwoSpaces (s.dropWhile pyIsSpace) := by
  induction s with
  | nil => simpa using h
  | cons a t ih =>
    by_cases ha : pyIsSpace a
    · rw [List.dropWhile_cons_of_pos ha]
      exact ih (noTwoSpaces_tail a t h)
    · rwa [List.dropWhile_cons_of_neg ha]

theorem noTwoSpaces_reverse (s : List Char) (h : NoTwoSpaces s) :
    NoTwoSpaces s.reverse := by
  unfold NoTwoSpaces at h ⊢
  rw [List.chain'_reverse]
  exact h.imp (fun a b hab => hab.symm)

theorem spacesNormal_subset (s t : List Char) (hsub : ∀ c ∈ t, c ∈ s)
    (h : SpacesNormal s) : SpacesNormal t :=
  fun c hc hsp => h c (hsub c hc) hsp

theorem mem_dropWhile_self (p : Char → Bool) (s : List Char) :
    ∀ c ∈ s.dropWhile p, c ∈ s := by
  intro c hc
  exact (List.dropWhile_suffix p).mem hc

theorem cleanForm_stripWs_collapseWs (s : List Char) :
    CleanForm (stripWs (collapseWs s)) := by
  set u := (collapseWs s).dropWhile pyIsSpace with hu
  have h1 : NoTwoSpaces u := noTwoSpaces_dropWhile _ (noTwoSpaces_collapseAux false s)
  have h2 : SpacesNormal u :=
    spacesNormal_subset _ _ (mem_dropWhile_self _ _) (spacesNormal_collapseAux false s)
  have h3 : HeadNotSpace u := headNotSpace_dropWhile _
  -- v is the reverse of the final result
  set v := u.reverse.dropWhile pyIsSpace with hv
  have hvs : v <:+ u.reverse := List.dropWhile_suffix _
  have g1 : NoTwoSpaces v := noTwoSpaces_dropWhile _ (noTwoSpaces_reverse _ h1)
  have g2 : SpacesNormal v := by
    refine spacesNormal_subset u _ ?_ h2
    intro c hc
    have : c ∈ u.reverse := hvs.mem hc
    simpa using this
  have g3 : HeadNotSpace v := headNotSpace_dropWhile _
  have hres : stripWs (collapseWs s) = v.reverse := by
    rw [stripWs, ← hu, ← hv]
  rw [hres]
  refine ⟨noTwoSpaces_reverse _ g1, ?_, ?_, ?_⟩
  · refine spacesNormal_subset v _ ?_ g2
    intro c hc; simpa using hc
  · -- the head of the reversed v is the head of a prefix of u
    intro c hc
    have hpre : v.reverse <+: u := by
      have := hvs.reverse
      simpa using this
    rcases hpre with ⟨w, hw⟩
    cases hval : v.reverse with
    | nil => rw [hval] at hc; simp at hc
    | cons d r =>
      rw [hval] at hc
      simp at hc
      rw [hval] at hw
      have : u.head? = some d := by rw [← hw]; rfl
      rw [← hc]
      exact h3 d this
  · rw [List.reverse_reverse]
    exact g3

theorem collapseAux_of_cleanForm (s : List Char)
    (h1 : NoTwoSpaces s) (h2 : SpacesNormal s) (h4 : HeadNotSpace s.reverse) :
    collapseWsAux false s = s := by
  induction s with
  | nil => rfl
  | cons a t ih =>
    have hTailSN : SpacesNormal t := fun c hc hsp => h2 c (List.mem_cons_of_mem a hc) hsp
    have hTailNT : NoTwoSpaces t := noTwoSpaces_tail _ _ h1
    have hTailLast : HeadNotSpace t.reverse := by
      intro c hc
      apply h4 c
      rw [List.reverse_cons]
      cases hrev : t.reverse with
      | nil => rw [hrev] at hc; simp at hc
      | cons d rest =>
        rw [hrev] at hc
        simp at hc
        rw [List.cons_append]
        simp [hc]
    by_cases ha : pyIsSpace a
    · -- a is whitespace, hence a plain space; t starts with a non-space
      have haSp : a = ' ' := h2 a (List.mem_cons_self a t) ha
      cases t with
      | nil =>
        exfalso
        have : pyIsSpace a = false := h4 a (by simp)
        rw [this] at ha; exact Bool.noConfusion ha
      | cons b r =>
        have hb : pyIsSpace b = false := by
          rcases (List.chain'_cons'.mp h1).1 b rfl with hx | hx
          · rw [hx] at ha; exact Bool.noConfusion ha
          · exact hx
        have ihr : collapseWsAux false (b :: r) = b :: r := ih hTailNT hTailSN hTailLast
        calc collapseWsAux false (a :: b :: r)
            = ' ' :: collapseWsAux true (b :: r) := by simp [collapseWsAux, ha]
          _ = ' ' :: collapseWsAux false (b :: r) := by
              rw [collapseAux_true_of_headNotSpace _ (fun c hc => by
                simp at hc; rw [← hc]; exact hb)]
          _ = ' ' :: b :: r := by rw [ihr]
          _ = a :: b :: r := by rw [haSp]
    · have ihr : collapseWsAux false t = t := ih hTailNT hTailSN hTailLast
      calc collapseWsAux false (a :: t) = a :: collapseWsAux false t := by
            simp [collapseWsAux, ha]
        _ = a :: t := by rw [ihr]

theorem stripWs_of_cleanForm (s : List Char) (h : CleanForm s) : stripWs s = s := by
  rcases h with ⟨_, _, h3, h4⟩
  rw [stripWs, dropWhile_of_headNotSpace s h3, dropWhile_of_headNotSpace _ h4,
    List.reverse_reverse]

theorem stripWs_collapseWs_idem (s : List Char) :
    stripWs (collapseWs (stripWs (collapseWs s))) = stripWs (collapseWs s) := by
  have h := cleanForm_stripWs_collapseWs s
  rcases h with ⟨h1, h2, h3, h4⟩
  rw [show collapseWs (stripWs (collapseWs s)) = stripWs (collapseWs s) from
    collapseAux_of_cleanForm _ h1 h2 h4]
  exact stripWs_of_cleanForm _ ⟨h1, h2, h3, h4⟩

theorem fdt_mem_elim (paths : List String) (docs : List (List Char))
    (sim : Nat → Nat → ℚ) (th : ℚ) (x : String × String × ℚ)
    (hx : x ∈ Mixed.find_duplicates_tfidf paths docs sim th) :
    ∃ r c, r < docs.length ∧ c < docs.length ∧ r < c ∧ th < sim r c ∧
      x = (paths.getD r "", paths.getD c "", sim r c) := by
  unfold Mixed.find_duplicates_tfidf at hx
  split at hx
  · simp at hx
  · rw [List.mem_flatMap] at hx
    obtain ⟨r, hr, hx⟩ := hx
    rw [List.mem_filterMap] at hx
    obtain ⟨c, hc, hx⟩ := hx
    rw [List.mem_range] at hr hc
    split at hx
    · rename_i hcond
      exact ⟨r, c, hr, hc, hcond.2, hcond.1, (Option.some.inj hx).symm⟩
    · exact absurd hx (by simp)

theorem two_mem_one_lt_length (l : List String) (a b : String)
    (ha : a ∈ l) (hb : b ∈ l) (hne : a ≠ b) : 1 < l.length := by
  cases l with
  | nil => simp at ha
  | cons x t =>
    cases t with
    | nil =>
      simp at ha hb
      rw [ha, hb] at hne
      exact absurd rfl hne
    | cons y u => simp [Nat.lt_add_of_pos_left]

/-- C5: text_clean is idempotent.  The repository-level content (the empty
input guard and the idempotence of whitespace collapsing plus stripping) is
proved outright; the external Unicode library facts the code relies on enter
as the two hypotheses, namely that NFKD normalization and lower-casing fix
the already normalized, lower-cased, whitespace-collapsed output. -/
theorem c5_text_clean_idempotent (n l : List Char → List Char) (x : List Char)
    (hn : n (text_clean n l x) = text_clean n l x)
    (hl : l (text_clean n l x) = text_clean n l x) :
    text_clean n l (text_clean n l x) = text_clean n l x := by
  by_cases hx : x = []
  · subst hx
    simp [text_clean]
  · have hy : text_clean n l x = stripWs (collapseWs (l (n x))) := by
      rw [text_clean, if_neg hx]
    by_cases hy0 : text_clean n l x = []
    · rw [hy0, text_clean]
      simp
    · rw [text_clean, if_neg hy0]
      calc stripWs (collapseWs (l (n (text_clean n l x))))
          = stripWs (collapseWs (text_clean n l x)) := by rw [hn, hl]
        _ = stripWs (collapseWs (stripWs (collapseWs (l (n x))))) := by rw [← hy]
        _ = stripWs (collapseWs (l (n x))) := stripWs_collapseWs_idem _
        _ = text_clean n l x := hy.symm

/-- Witness for C5 at a concrete input, instantiating the Unicode library
maps with the identity. -/
theorem c5_witness :
    text_clean id id (text_clean id id " a  b ".data) = text_clean id id " a  b ".data :=
  c5_text_clean_idempotent id id " a  b ".data rfl rfl

/-- C4: every pair emitted by find_duplicates_tfidf has score strictly
greater than the threshold; in particular a pair whose cosine similarity
equals the threshold exactly is never emitted, for every corpus, similarity
matrix and threshold. -/
theorem c4_threshold_strict (paths : List String) (docs : List (List Char))
    (sim : Nat → Nat → ℚ) (th : ℚ) (x : String × String × ℚ)
    (hx : x ∈ Mixed.find_duplicates_tfidf paths docs sim th) :
    th < x.2.2 ∧ x.2.2 ≠ th := by
  obtain ⟨r, c, _, _, _, hth, hxe⟩ := fdt_mem_elim paths docs sim th x hx
  subst hxe
  exact ⟨hth, ne_of_gt hth⟩

/-- Witness for C4: a concrete two-document corpus emitting one pair whose
score 1 exceeds the default threshold 9/10 and differs from it. -/
theorem c4_witness :
    defaultThreshold < (("a.txt", "b.txt", (1 : ℚ)) : String × String × ℚ).2.2 ∧
      (("a.txt", "b.txt", (1 : ℚ)) : String × String × ℚ).2.2 ≠ defaultThreshold :=
  c4_threshold_strict ["a.txt", "b.txt"] ["d".data, "d".data]
    (fun _ _ => 1) defaultThreshold ("a.txt", "b.txt", 1) (by decide)

/-- C8: with fewer than two documents in the corpus find_duplicates_tfidf
returns the empty list, for every path list, similarity matrix and
threshold. -/
theorem c8_insufficient_corpus (paths : List String) (docs : List (List Char))
    (sim : Nat → Nat → ℚ) (th : ℚ) (h : docs.length < 2) :
    Mixed.find_duplicates_tfidf paths docs sim th = [] := by
  unfold Mixed.find_duplicates_tfidf
  rw [if_pos h]

/-- Witness for C8 at a concrete one-document corpus. -/
theorem c8_witness :
    Mixed.find_duplicates_tfidf ["a.txt"] ["d".data] (fun _ _ => 0) defaultThreshold = [] :=
  c8_insufficient_corpus ["a.txt"] ["d".data] (fun _ _ => 0) defaultThreshold (by decide)

/-- C3 counterexample: when the corpus paths arrive in non-lexicographic
walker order (which os.walk does not sort), two identical documents (cosine
similarity exactly 1) produce the emitted pair (b.txt, a.txt) whose first
path is lexicographically greater than its second, contradicting the claimed
pathA < pathB invariant. -/
theorem c3_counterexample :
    Mixed.find_duplicates_tfidf ["b.txt", "a.txt"]
        ["duplicate content".data, "duplicate content".data]
        (fun _ _ => 1) defaultThreshold = [("b.txt", "a.txt", 1)] ∧
      ¬ ("b.txt".data < "a.txt".data) ∧ "a.txt".data < "b.txt".data := by
  refine ⟨by decide, by decide, by decide⟩

/-- C3 (amended): every emitted pair arises from corpus indices r < c, so
over a duplicate-free path list no self-pair is emitted and no pair is
emitted together with its reversal; the order within a pair is corpus order,
not necessarily lexicographic path order. -/
theorem c3_amended_index_order (paths : List String) (docs : List (List Char))
    (sim : Nat → Nat → ℚ) (th : ℚ)
    (hnd : paths.Nodup) (hlen : docs.length ≤ paths.length) :
    (∀ x ∈ Mixed.find_duplicates_tfidf paths docs sim th, x.1 ≠ x.2.1) ∧
    (∀ x y, x ∈ Mixed.find_duplicates_tfidf paths docs sim th →
      y ∈ Mixed.find_duplicates_tfidf paths docs sim th →
      x.1 = y.2.1 → x.2.1 = y.1 → False) := by
  constructor
  · intro x hx
    obtain ⟨r, c, hr, hc, hrc, _, hxe⟩ := fdt_mem_elim paths docs sim th x hx
    subst hxe
    intro heq
    simp only at heq
    rw [List.getD_eq_getElem paths "" (lt_of_lt_of_le hr hlen),
      List.getD_eq_getElem paths "" (lt_of_lt_of_le hc hlen)] at heq
    have := (List.Nodup.getElem_inj_iff hnd).mp heq
    omega
  · intro x y hx hy hxy hyx
    obtain ⟨r, c, hr, hc, hrc, _, hxe⟩ := fdt_mem_elim paths docs sim th x hx
    obtain ⟨r2, c2, hr2, hc2, hrc2, _, hye⟩ := fdt_mem_elim paths docs sim th y hy
    subst hxe
    subst hye
    simp only at hxy hyx
    rw [List.getD_eq_getElem paths "" (lt_of_lt_of_le hr hlen),
      List.getD_eq_getElem paths "" (lt_of_lt_of_le hc2 hlen)] at hxy
    rw [List.getD_eq_getElem paths "" (lt_of_lt_of_le hc hlen),
      List.getD_eq_getElem paths "" (lt_of_lt_of_le hr2 hlen)] at hyx
    have e1 := (List.Nodup.getElem_inj_iff hnd).mp hxy
    have e2 := (List.Nodup.getElem_inj_iff hnd).mp hyx
    omega

/-- Witness for the amended C3 on a concrete two-document corpus. -/
theorem c3_amended_witness :
    (∀ x ∈ Mixed.find_duplicates_tfidf ["b.txt", "a.txt"] ["d".data, "d".data]
        (fun _ _ => 1) defaultThreshold, x.1 ≠ x.2.1) ∧
    (∀ x y, x ∈ Mixed.find_duplicates_tfidf ["b.txt", "a.txt"] ["d".data, "d".data]
        (fun _ _ => 1) defaultThreshold →
      y ∈ Mixed.find_duplicates_tfidf ["b.txt", "a.txt"] ["d".data, "d".data]
        (fun _ _ => 1) defaultThreshold →
      x.1 = y.2.1 → x.2.1 = y.1 → False) :=
  c3_amended_index_order ["b.txt", "a.txt"] ["d".data, "d".data]
    (fun _ _ => 1) defaultThreshold (by decide) (by decide)

theorem endsWithL_eq_true_iff (p : String) (s : List Char) :
    endsWithL p s = true ↔ s <:+ p.data := by
  rw [endsWithL]
  exact decide_eq_true_iff

theorem suffix_eq_of_length (s t p : List Char) (hs : s <:+ p) (ht : t <:+ p)
    (hlen : s.length = t.length) : s = t := by
  obtain ⟨u, hu⟩ := hs
  obtain ⟨v, hv⟩ := ht
  rw [← hv] at hu
  have hul : u.length = v.length := by
    have := congrArg List.length hu
    simp only [List.length_append] at this
    omega
  exact (List.append_inj hu hul).2

theorem pdf_not_txt (p : String) (h : endsWithL p ".pdf".data = true) :
    endsWithL p ".txt".data = false := by
  rw [Bool.eq_false_iff]
  intro hc
  have h1 := (endsWithL_eq_true_iff p _).mp h
  have h2 := (endsWithL_eq_true_iff p _).mp hc
  have := suffix_eq_of_length _ _ _ h2 h1 (by decide)
  exact absurd this (by decide)

theorem mixed_ld_cons_dropped (w : ExtWorld) (n l : List Char → List Char)
    (p : String) (rest : List String) (t : List Char)
    (hs : inExts (l (pySuffix p)) = true)
    (he : extract_text w l p = some t) (hne : t ≠ [])
    (hshort : ¬ 50 < (text_clean n l t).length) :
    Mixed.load_documents w n l (p :: rest) = Mixed.load_documents w n l rest := by
  simp [Mixed.load_documents, hs, he, hne, hshort]

theorem mixed_ld_cons_text (w : ExtWorld) (n l : List Char → List Char)
    (p : String) (rest : List String) (t : List Char)
    (hs : inExts (l (pySuffix p)) = true)
    (he : extract_text w l p = some t) (hne : t ≠ [])
    (hlong : 50 < (text_clean n l t).length) :
    Mixed.load_documents w n l (p :: rest) =
      (p :: (Mixed.load_documents w n l rest).1,
        text_clean n l t :: (Mixed.load_documents w n l rest).2.1,
        (Mixed.load_documents w n l rest).2.2) := by
  simp [Mixed.load_documents, hs, he, hne, hlong]

theorem mixed_ld_cons_addbin (w : ExtWorld) (n l : List Char → List Char)
    (p : String) (rest : List String)
    (he : extract_text w l p = none) :
    Mixed.load_documents w n l (p :: rest) =
      ((Mixed.load_documents w n l rest).1,
        (Mixed.load_documents w n l rest).2.1,
        p :: (Mixed.load_documents w n l rest).2.2) := by
  by_cases hs : inExts (l (pySuffix p))
  · simp [Mixed.load_documents, hs, he]
  · simp [Mixed.load_documents, hs]

theorem mixed_ld_cons_super (w : ExtWorld) (n l : List Char → List Char)
    (q : String) (rest : List String) :
    ((Mixed.load_documents w n l (q :: rest)).1 = (Mixed.load_documents w n l rest).1 ∨
      (Mixed.load_documents w n l (q :: rest)).1 = q :: (Mixed.load_documents w n l rest).1) ∧
    ((Mixed.load_documents w n l (q :: rest)).2.2 = (Mixed.load_documents w n l rest).2.2 ∨
      (Mixed.load_documents w n l (q :: rest)).2.2 =
        q :: (Mixed.load_documents w n l rest).2.2) := by
  by_cases hC : inExts (l (pySuffix q))
  · cases hE : extract_text w l q with
    | none => simp [Mixed.load_documents, hC, hE]
    | some t =>
      by_cases ht : t = []
      · simp [Mixed.load_documents, hC, hE, ht]
      · by_cases hlen : 50 < (text_clean n l t).length
        · simp [Mixed.load_documents, hC, hE, ht, hlen]
        · simp [Mixed.load_documents, hC, hE, ht, hlen]
  · simp [Mixed.load_documents, hC]

theorem mixed_text_mem_cases (w : ExtWorld) (n l : List Char → List Char)
    (q : String) (rest : List String) (x : String)
    (hx : x ∈ (Mixed.load_documents w n l (q :: rest)).1) :
    x = q ∨ x ∈ (Mixed.load_documents w n l rest).1 := by
  rcases (mixed_ld_cons_super w n l q rest).1 with h | h
  · right; rwa [h] at hx
  · rw [h] at hx
    exact List.mem_cons.mp hx

theorem mixed_bin_mem_cases (w : ExtWorld) (n l : List Char → List Char)
    (q : String) (rest : List String) (x : String)
    (hx : x ∈ (Mixed.load_documents w n l (q :: rest)).2.2) :
    x = q ∨ x ∈ (Mixed.load_documents w n l rest).2.2 := by
  rcases (mixed_ld_cons_super w n l q rest).2 with h | h
  · right; rwa [h] at hx
  · rw [h] at hx
    exact List.mem_cons.mp hx

theorem mixed_text_mem_mono (w : ExtWorld) (n l : List Char → List Char)
    (q : String) (rest : List String) (x : String)
    (hx : x ∈ (Mixed.load_documents w n l rest).1) :
    x ∈ (Mixed.load_documents w n l (q :: rest)).1 := by
  rcases (mixed_ld_cons_super w n l q rest).1 with h | h
  · rwa [h]
  · rw [h]
    exact List.mem_cons_of_mem q hx

theorem mixed_bin_mem_mono (w : ExtWorld) (n l : List Char → List Char)
    (q : String) (rest : List String) (x : String)
    (hx : x ∈ (Mixed.load_documents w n l rest).2.2) :
    x ∈ (Mixed.load_documents w n l (q :: rest)).2.2 := by
  rcases (mixed_ld_cons_super w n l q rest).2 with h | h
  · rwa [h]
  · rw [h]
    exact List.mem_cons_of_mem q hx

theorem mixed_extract_none_to_binary (w : ExtWorld) (n l : List Char → List Char)
    (paths : List String) (p : String)
    (hp : p ∈ paths) (hext : extract_text w l p = none) :
    p ∈ (Mixed.load_documents w n l paths).2.2 ∧
    p ∉ (Mixed.load_documents w n l paths).1 := by
  constructor
  · induction paths with
    | nil => simp at hp
    | cons q rest ih =>
      rcases List.mem_cons.mp hp with h | h
      · subst h
        rw [mixed_ld_cons_addbin w n l p rest hext]
        exact List.mem_cons_self _ _
      · exact mixed_bin_mem_mono w n l q rest p (ih h)
  · clear hp
    induction paths with
    | nil => simp [Mixed.load_documents]
    | cons q rest ih =>
      by_cases hq : q = p
      · subst hq
        rw [mixed_ld_cons_addbin w n l q rest hext]
        intro hmem
        exact ih hmem
      · intro hmem
        rcases mixed_text_mem_cases w n l q rest p hmem with h | h
        · exact hq h.symm
        · exact ih h

theorem main_ld_cons_skip (w : ExtWorld) (n l : List Char → List Char)
    (p : String) (rest : List String)
    (hs : inExts (l (pySuffix p)) = true)
    (he : MainMod.extract_text w p = none) :
    MainMod.load_documents w n l (p :: rest) = MainMod.load_documents w n l rest := by
  simp [MainMod.load_documents, hs, he]

theorem main_ld_cons_super (w : ExtWorld) (n l : List Char → List Char)
    (q : String) (rest : List String) :
    ((MainMod.load_documents w n l (q :: rest)).1 = (MainMod.load_documents w n l rest).1 ∨
      (MainMod.load_documents w n l (q :: rest)).1 =
        q :: (MainMod.load_documents w n l rest).1) ∧
    ((MainMod.load_documents w n l (q :: rest)).2.2 =
        (MainMod.load_documents w n l rest).2.2 ∨
      (MainMod.load_documents w n l (q :: rest)).2.2 =
        q :: (MainMod.load_documents w n l rest).2.2) := by
  by_cases hC : inExts (l (pySuffix q))
  · cases hE : MainMod.extract_text w q with
    | none => simp [MainMod.load_documents, hC, hE]
    | some t =>
      by_cases ht : t = []
      · simp [MainMod.load_documents, hC, hE, ht]
      · by_cases hlen : 50 < (text_clean n l t).length
        · simp [MainMod.load_documents, hC, hE, ht, hlen]
        · simp [MainMod.load_documents, hC, hE, ht, hlen]
  · simp [MainMod.load_documents, hC]

theorem main_text_mem_cases (w : ExtWorld) (n l : List Char → List Char)
    (q : String) (rest : List String) (x : String)
    (hx : x ∈ (MainMod.load_documents w n l (q :: rest)).1) :
    x = q ∨ x ∈ (MainMod.load_documents w n l rest).1 := by
  rcases (main_ld_cons_super w n l q rest).1 with h | h
  · right; rwa [h] at hx
  · rw [h] at hx
    exact List.mem_cons.mp hx

theorem main_bin_mem_cases (w : ExtWorld) (n l : List Char → List Char)
    (q : String) (rest : List String) (x : String)
    (hx : x ∈ (MainMod.load_documents w n l (q :: rest)).2.2) :
    x = q ∨ x ∈ (MainMod.load_documents w n l rest).2.2 := by
  rcases (main_ld_cons_super w n l q rest).2 with h | h
  · right; rwa [h] at hx
  · rw [h] at hx
    exact List.mem_cons.mp hx

theorem main_extract_none_dropped (w : ExtWorld) (n l : List Char → List Char)
    (paths : List String) (p : String)
    (hs : inExts (l (pySuffix p)) = true)
    (hext : MainMod.extract_text w p = none) :
    p ∉ (MainMod.load_documents w n l paths).2.2 ∧
    p ∉ (MainMod.load_documents w n l paths).1 := by
  induction paths with
  | nil => simp [MainMod.load_documents]
  | cons q rest ih =>
    by_cases hq : q = p
    · subst hq
      rw [main_ld_cons_skip w n l q rest hs hext]
      exact ih
    · constructor
      · intro hmem
        rcases main_bin_mem_cases w n l q rest p hmem with h | h
        · exact hq h.symm
        · exact ih.1 h
      · intro hmem
        rcases main_text_mem_cases w n l q rest p hmem with h | h
        · exact hq h.symm
        · exact ih.2 h

/-- C1 counterexample: in the concrete world wShort the file short.txt has a
recognized extension, extraction succeeds with a ten-character text (below
the 50-character gate), yet the file lands in the binary list of neither
load_documents output: it is silently dropped.  The fifty-character file
edge.txt is likewise not text-eligible because the gate of the code is
strictly greater-than 50, not at-least 50. -/
theorem c1_counterexample :
    extract_text wShort id "short.txt" = some tenChars ∧
    (text_clean id id tenChars).length < 50 ∧
    inExts (id (pySuffix "short.txt")) = true ∧
    "short.txt" ∉ (Mixed.load_documents wShort id id ["short.txt", "edge.txt"]).2.2 ∧
    extract_text wShort id "edge.txt" = some fiftyChars ∧
    (text_clean id id fiftyChars).length = 50 ∧
    "edge.txt" ∉ (Mixed.load_documents wShort id id ["short.txt", "edge.txt"]).1 := by
  refine ⟨by decide, by decide, by decide, by decide, by decide, by decide, by decide⟩

/-- C1 (amended): in load_documents, a recognized file whose extraction
succeeds with nonempty text is silently dropped from both the text-eligible
and the binary list whenever its cleaned length is at most 50 (in particular
at exactly 50), and is text-eligible exactly when the cleaned length is
strictly greater than 50. -/
theorem c1_amended_short_dropped (w : ExtWorld) (n l : List Char → List Char)
    (paths : List String) (p : String) (t : List Char)
    (hp : p ∈ paths) (hs : inExts (l (pySuffix p)) = true)
    (he : extract_text w l p = some t) (hne : t ≠ []) :
    ((text_clean n l t).length ≤ 50 →
      p ∉ (Mixed.load_documents w n l paths).1 ∧
      p ∉ (Mixed.load_documents w n l paths).2.2) ∧
    (50 < (text_clean n l t).length →
      p ∈ (Mixed.load_documents w n l paths).1) := by
  constructor
  · intro hlen
    have hshort : ¬ 50 < (text_clean n l t).length := by omega
    clear hp
    induction paths with
    | nil => simp [Mixed.load_documents]
    | cons q rest ih =>
      by_cases hq : q = p
      · subst hq
        rw [mixed_ld_cons_dropped w n l q rest t hs he hne hshort]
        exact ih
      · constructor
        · intro hmem
          rcases mixed_text_mem_cases w n l q rest p hmem with h | h
          · exact hq h.symm
          · exact ih.1 h
        · intro hmem
          rcases mixed_bin_mem_cases w n l q rest p hmem with h | h
          · exact hq h.symm
          · exact ih.2 h
  · intro hlong
    induction paths with
    | nil => simp at hp
    | cons q rest ih =>
      rcases List.mem_cons.mp hp with h | h
      · subst h
        rw [mixed_ld_cons_text w n l p rest t hs he hne hlong]
        exact List.mem_cons_self _ _
      · exact mixed_text_mem_mono w n l q rest p (ih h)

/-- Witness for the amended C1, applying it to the ten-character file. -/
theorem c1_amended_witness :
    ((text_clean id id tenChars).length ≤ 50 →
      "short.txt" ∉ (Mixed.load_documents wShort id id ["short.txt"]).1 ∧
      "short.txt" ∉ (Mixed.load_documents wShort id id ["short.txt"]).2.2) ∧
    (50 < (text_clean id id tenChars).length →
      "short.txt" ∈ (Mixed.load_documents wShort id id ["short.txt"]).1) :=
  c1_amended_short_dropped wShort id id ["short.txt"] "short.txt" tenChars
    (by decide) (by decide) (by decide) (by decide)

/-- C2 counterexample: in the concrete world wFail extraction of a.txt fails
(returns no text) and the extension is recognized, yet the load_documents of
main.py places the file in neither output list: it never reaches the binary
list, contradicting the claimed BinaryOnly fallback. -/
theorem c2_counterexample :
    MainMod.extract_text wFail "a.txt" = none ∧
    inExts (id (pySuffix "a.txt")) = true ∧
    "a.txt" ∉ (MainMod.load_documents wFail id id ["a.txt"]).2.2 ∧
    "a.txt" ∉ (MainMod.load_documents wFail id id ["a.txt"]).1 := by
  refine ⟨by decide, by decide, by decide, by decide⟩

/-- C2 (amended): when extraction of a recognized file fails, mixed.py does
fall back to the binary list, but the main.py variant silently drops the
file from both lists; neither variant can abort, both load_documents being
total functions of the path stream. -/
theorem c2_amended_fallback (w : ExtWorld) (n l : List Char → List Char)
    (paths : List String) (p : String)
    (hp : p ∈ paths) (hs : inExts (l (pySuffix p)) = true) :
    (extract_text w l p = none →
      p ∈ (Mixed.load_documents w n l paths).2.2 ∧
      p ∉ (Mixed.load_documents w n l paths).1) ∧
    (MainMod.extract_text w p = none →
      p ∉ (MainMod.load_documents w n l paths).2.2 ∧
      p ∉ (MainMod.load_documents w n l paths).1) := by
  constructor
  · intro hext
    exact mixed_extract_none_to_binary w n l paths p hp hext
  · intro hext
    exact main_extract_none_dropped w n l paths p hs hext

/-- Witness for the amended C2 in the all-failing world. -/
theorem c2_amended_witness :
    (extract_text wFail id "a.txt" = none →
      "a.txt" ∈ (Mixed.load_documents wFail id id ["a.txt"]).2.2 ∧
      "a.txt" ∉ (Mixed.load_documents wFail id id ["a.txt"]).1) ∧
    (MainMod.extract_text wFail "a.txt" = none →
      "a.txt" ∉ (MainMod.load_documents wFail id id ["a.txt"]).2.2 ∧
      "a.txt" ∉ (MainMod.load_documents wFail id id ["a.txt"]).1) :=
  c2_amended_fallback wFail id id ["a.txt"] "a.txt" (by decide) (by decide)

/-- C7: a page-description file whose producer or creator metadata contains
a known CAD tool name as a substring is excluded from semantic extraction
(extract_text returns none, whatever text the page renderer could have
produced and whatever the vector probe would count, since the metadata check
short-circuits first) and is routed to the binary hash list by
load_documents. -/
theorem c7_cad_metadata_excluded (w : ExtWorld) (n l : List Char → List Char)
    (paths : List String) (p : String) (pr cr sig : List Char)
    (hp : p ∈ paths)
    (hpdf : endsWithL p ".pdf".data = true)
    (hmeta : w.pdfMeta p = some (pr, cr))
    (hsig : sig ∈ cadSigs)
    (hinf : isInfixL sig (l (l pr)) = true ∨ isInfixL sig (l (l cr)) = true) :
    extract_text w l p = none ∧
    p ∈ (Mixed.load_documents w n l paths).2.2 := by
  have hcad : is_created_by_cad_software w l p = true := by
    rw [is_created_by_cad_software, hmeta]
    simp only [Bool.or_eq_true, List.any_eq_true]
    rcases hinf with h | h
    · exact Or.inl ⟨sig, hsig, h⟩
    · exact Or.inr ⟨sig, hsig, h⟩
  have hnotxt : endsWithL p ".txt".data = false := pdf_not_txt p hpdf
  have hext : extract_text w l p = none := by
    simp [extract_text, hnotxt, hpdf, hcad]
  exact ⟨hext, (mixed_extract_none_to_binary w n l paths p hp hext).1⟩

/-- Witness for C7: the drawing whose producer field reads autocad plotter
is excluded and binary-listed although its page text is long prose. -/
theorem c7_witness :
    extract_text wCad id "draw.pdf" = none ∧
    "draw.pdf" ∈ (Mixed.load_documents wCad id id ["draw.pdf"]).2.2 :=
  c7_cad_metadata_excluded wCad id id ["draw.pdf"] "draw.pdf"
    "autocad plotter".data [] "autocad".data
    (by decide) (by decide) (by decide) (by decide) (Or.inl (by decide))

/-- C9: when the external parser cannot open a document for heuristic
inspection, the metadata heuristic reports flagged, the vector-density
heuristic reports flagged, and a page-description file for which either
probe fails is excluded from semantic extraction. -/
theorem c9_inspection_failure_failsafe (w : ExtWorld) (l : List Char → List Char)
    (p : String) (th : Nat) :
    (w.pdfMeta p = none → is_created_by_cad_software w l p = true) ∧
    (w.pdfVector p = none → is_complex_vector_file w p th = true) ∧
    (endsWithL p ".pdf".data = true →
      w.pdfMeta p = none ∨ w.pdfVector p = none →
      extract_text w l p = none) := by
  refine ⟨?_, ?_, ?_⟩
  · intro h
    rw [is_created_by_cad_software, h]
  · intro h
    rw [is_complex_vector_file, h]
  · intro hpdf hfail
    have hnotxt : endsWithL p ".txt".data = false := pdf_not_txt p hpdf
    rcases hfail with h | h
    · have hcad : is_created_by_cad_software w l p = true := by
        rw [is_created_by_cad_software, h]
      simp [extract_text, hnotxt, hpdf, hcad]
    · by_cases hcad : is_created_by_cad_software w l p
      · simp [extract_text, hnotxt, hpdf, hcad]
      · have hvec : is_complex_vector_file w p 500 = true := by
          rw [is_complex_vector_file, h]
        simp [extract_text, hnotxt, hpdf, hcad, hvec]

/-- Witness for C9 in the world where every external call fails. -/
theorem c9_witness :
    is_created_by_cad_software wFail id "x.pdf" = true ∧
    is_complex_vector_file wFail "x.pdf" 500 = true ∧
    extract_text wFail id "x.pdf" = none :=
  ⟨(c9_inspection_failure_failsafe wFail id "x.pdf" 500).1 rfl,
    (c9_inspection_failure_failsafe wFail id "x.pdf" 500).2.1 rfl,
    (c9_inspection_failure_failsafe wFail id "x.pdf" 500).2.2 (by decide) (Or.inl rfl)⟩

/-- C10: a file whose lower-cased suffix is recognized while none of the
case-sensitive extension tests of the extractor match (the upper- or
mixed-case variants of the supported extensions) is always placed in the
binary list and never in the text-eligible list, whatever its content. -/
theorem c10_case_variant_binary (w : ExtWorld) (n l : List Char → List Char)
    (paths : List String) (p : String)
    (hp : p ∈ paths)
    (hclass : inExts (l (pySuffix p)) = true)
    (h1 : endsWithL p ".txt".data = false)
    (h2 : endsWithL p ".pdf".data = false)
    (h3 : endsWithL p ".docx".data = false) :
    p ∈ (Mixed.load_documents w n l paths).2.2 ∧
    p ∉ (Mixed.load_documents w n l paths).1 := by
  have hext : extract_text w l p = none := by
    simp [extract_text, h1, h2, h3]
  exact mixed_extract_none_to_binary w n l paths p hp hext

/-- Witness for C10: an upper-case doc.TXT whose suffix folds to a
recognized extension under ASCII lower-casing. -/
theorem c10_witness :
    "doc.TXT" ∈ (Mixed.load_documents wShort id asciiLower ["doc.TXT"]).2.2 ∧
    "doc.TXT" ∉ (Mixed.load_documents wShort id asciiLower ["doc.TXT"]).1 :=
  c10_case_variant_binary wShort id asciiLower ["doc.TXT"] "doc.TXT"
    (by decide) (by decide) (by decide) (by decide) (by decide)

theorem mem_lookupH_addHash_self (m : List (Nat × List String)) (h : Nat) (p : String) :
    p ∈ BinHash.lookupH (BinHash.addHash m h p) h := by
  induction m with
  | nil => simp [BinHash.addHash, BinHash.lookupH]
  | cons kv rest ih =>
    obtain ⟨k, ps⟩ := kv
    by_cases hk : k = h
    · subst hk
      simp [BinHash.addHash, BinHash.lookupH]
    · simp [BinHash.addHash, BinHash.lookupH, hk]
      exact ih

theorem lookupH_addHash_mono (m : List (Nat × List String)) (h h0 : Nat)
    (p q : String) (hq : q ∈ BinHash.lookupH m h0) :
    q ∈ BinHash.lookupH (BinHash.addHash m h p) h0 := by
  induction m with
  | nil => simp [BinHash.lookupH] at hq
  | cons kv rest ih =>
    obtain ⟨k, ps⟩ := kv
    by_cases hk : k = h
    · subst hk
      by_cases hk0 : k = h0
      · subst hk0
        simp [BinHash.lookupH] at hq
        simp [BinHash.addHash, BinHash.lookupH]
        exact Or.inl hq
      · simp [BinHash.lookupH, hk0] at hq
        simpa [BinHash.addHash, BinHash.lookupH, hk0] using hq
    · by_cases hk0 : k = h0
      · subst hk0
        simp [BinHash.lookupH] at hq
        simpa [BinHash.addHash, BinHash.lookupH, hk] using hq
      · simp [BinHash.lookupH, hk0] at hq
        simp [BinHash.addHash, BinHash.lookupH, hk, hk0]
        exact ih hq

theorem lookupH_buildHashMap_mono (sha : List Nat → Nat) (enc : List Char → List Nat)
    (n l : List Char → List Char) (w : ExtWorld)
    (paths : List String) (m : List (Nat × List String)) (h0 : Nat) (q : String)
    (hq : q ∈ BinHash.lookupH m h0) :
    q ∈ BinHash.lookupH (BinHash.buildHashMap sha enc n l w paths m) h0 := by
  induction paths generalizing m with
  | nil => simpa [BinHash.buildHashMap] using hq
  | cons p rest ih =>
    cases hf : BinHash.hash_file sha enc n l w p with
    | none => simpa [BinHash.buildHashMap, hf] using ih m hq
    | some h =>
      simp only [BinHash.buildHashMap, hf]
      exact ih _ (lookupH_addHash_mono m h h0 p q hq)

theorem mem_lookupH_buildHashMap (sha : List Nat → Nat) (enc : List Char → List Nat)
    (n l : List Char → List Char) (w : ExtWorld)
    (paths : List String) (m : List (Nat × List String)) (p : String) (h : Nat)
    (hp : p ∈ paths) (hf : BinHash.hash_file sha enc n l w p = some h) :
    p ∈ BinHash.lookupH (BinHash.buildHashMap sha enc n l w paths m) h := by
  induction paths generalizing m with
  | nil => simp at hp
  | cons q rest ih =>
    rcases List.mem_cons.mp hp with he | he
    · subst he
      simp only [BinHash.buildHashMap, hf]
      exact lookupH_buildHashMap_mono sha enc n l w rest _ h p
        (mem_lookupH_addHash_self m h p)
    · cases hg : BinHash.hash_file sha enc n l w q with
      | none => simpa [BinHash.buildHashMap, hg] using ih m he
      | some h2 =>
        simp only [BinHash.buildHashMap, hg]
        exact ih _ he

theorem lookupH_ne_nil_mem (m : List (Nat × List String)) (h : Nat)
    (hne : BinHash.lookupH m h ≠ []) : (h, BinHash.lookupH m h) ∈ m := by
  induction m with
  | nil => simp [BinHash.lookupH] at hne
  | cons kv rest ih =>
    obtain ⟨k, ps⟩ := kv
    by_cases hk : k = h
    · subst hk
      simp [BinHash.lookupH]
    · simp only [BinHash.lookupH, hk, if_false] at hne ⊢
      exact List.mem_cons_of_mem _ (ih hne)

/-- C6: two files of different container formats whose extracted texts clean
to the same string receive the same fingerprint from hash_file even though
their raw bytes differ, and find_duplicates reports a duplicate group
containing both paths. -/
theorem c6_cross_format_same_fingerprint (sha : List Nat → Nat)
    (enc : List Char → List Nat) (n l : List Char → List Char) (w : ExtWorld)
    (paths : List String) (p1 p2 : String) (t1 t2 : List Char)
    (hp1 : p1 ∈ paths) (hp2 : p2 ∈ paths) (hne : p1 ≠ p2)
    (hpdf : endsWithL p1 ".pdf".data = true)
    (hdocx : endsWithL p2 ".docx".data = true)
    (hraw : w.raw p1 ≠ w.raw p2)
    (he1 : extract_text w l p1 = some t1)
    (he2 : extract_text w l p2 = some t2)
    (hcl : text_clean n l t1 = text_clean n l t2) :
    BinHash.hash_file sha enc n l w p1 = BinHash.hash_file sha enc n l w p2 ∧
    ∃ g ∈ BinHash.find_duplicates sha enc n l w paths, p1 ∈ g.2 ∧ p2 ∈ g.2 := by
  have hf1 : BinHash.hash_file sha enc n l w p1 =
      some (sha (enc (text_clean n l t1))) := by
    simp only [BinHash.hash_file, he1, BinHash.hash_text]
  have hf2 : BinHash.hash_file sha enc n l w p2 =
      some (sha (enc (text_clean n l t1))) := by
    simp only [BinHash.hash_file, he2, BinHash.hash_text, hcl]
  refine ⟨by rw [hf1, hf2], ?_⟩
  set h := sha (enc (text_clean n l t1)) with hh
  set M := BinHash.buildHashMap sha enc n l w paths [] with hM
  have hm1 : p1 ∈ BinHash.lookupH M h :=
    mem_lookupH_buildHashMap sha enc n l w paths [] p1 h hp1 hf1
  have hm2 : p2 ∈ BinHash.lookupH M h :=
    mem_lookupH_buildHashMap sha enc n l w paths [] p2 h hp2 hf2
  refine ⟨(h, BinHash.lookupH M h), ?_, hm1, hm2⟩
  rw [BinHash.find_duplicates, List.mem_filter]
  constructor
  · exact lookupH_ne_nil_mem M h (fun hnil => by rw [hnil] at hm1; simp at hm1)
  · simp only [decide_eq_true_iff]
    exact two_mem_one_lt_length _ _ _ hm1 hm2 hne

/-- Witness for C6: a concrete page-description file and word-processor file
with identical prose and distinct raw bytes fall into one duplicate group. -/
theorem c6_witness :
    BinHash.hash_file shaW encW id id wPair "a.pdf" =
      BinHash.hash_file shaW encW id id wPair "b.docx" ∧
    ∃ g ∈ BinHash.find_duplicates shaW encW id id wPair ["a.pdf", "b.docx"],
      "a.pdf" ∈ g.2 ∧ "b.docx" ∈ g.2 :=
  c6_cross_format_same_fingerprint shaW encW id id wPair ["a.pdf", "b.docx"]
    "a.pdf" "b.docx" "the very same prose".data "the very same prose".data
    (by decide) (by decide) (by decide) (by decide) (by decide) (by decide)
    (by decide) (by decide) (by decide)
